import Mathlib

/-!
Shallow embedding of the company-name duplicate checker
(`src/Duplicate_Checker.py`) and verification of its specification.

Modelling conventions:
* A raw input name is `Option String`: `some s` models a Python `str`,
  `none` models any non-string value (`NaN`, `None`, numbers).
* Python regular expressions are modelled by explicit character scanners
  over `List Char`.  Word characters (`\w`) are modelled as ASCII
  alphanumerics and underscore, lower-casing as ASCII lower-casing; the
  source data and all claims are ASCII.
* `rapidfuzz.fuzz.ratio` computes the normalized indel similarity
  `100 * (1 - indel_distance(a, b) / (len(a) + len(b)))` (value `100`
  when both strings are empty).  It is modelled with exact rational
  arithmetic.
* Python `set`s are modelled by duplicate-free lists (insertion keeps the
  first occurrence); Python `dict`s by association lists in insertion
  order, matching the dictionary's key order.
-/

/-- A raw company name as supplied by the caller: `some s` for a Python
string, `none` for any non-string value. -/
abbrev RawName := Option String

/-- The `COMMON_SUFFIXES` list of the source, in source order. -/
def COMMON_SUFFIXES : List String :=
  ["private limited", "pvt ltd", "pvt. ltd.", "pvt. ltd", "pvt ltd.", "pvt.", "pvt",
   "llp", "inc", "corporation", "limited", "ltd.", "ltd", "co", "company",
   "group", "holdings", "international", "enterprises", "solutions",
   "services", "corp", "incorporated"]

/-- The `COMMON_REMOVE_WORDS` list of the source. -/
def COMMON_REMOVE_WORDS : List String := ["india", "INDIA"]

/-- The `SIMILARITY_THRESHOLD` constant of the source (90 %). -/
def SIMILARITY_THRESHOLD : ℚ := 90

/-- Python regex word character (`\w`), modelled for ASCII: letters,
digits and underscore. -/
def isWordChar (c : Char) : Bool := c.isAlphanum || c = '_'

/-- Word-character test lifted to an optional character; `none` (border of
the string) counts as a non-word position. -/
def wordB : Option Char → Bool
  | none => false
  | some c => isWordChar c

/-- A regex `\b` word boundary sits between two positions exactly when
one of them holds a word character and the other does not. -/
def boundaryB (a b : Option Char) : Bool := wordB a != wordB b

/-- A character kept by the source's `re.sub(r'[^a-z0-9 ]', '', name)`:
lowercase ASCII letter, digit or space. -/
def isCleanChar (c : Char) : Bool :=
  (97 ≤ c.toNat && c.toNat ≤ 122) || (48 ≤ c.toNat && c.toNat ≤ 57) || c = ' '

/-- Python regex `\s` / `str.strip` whitespace, ASCII range. -/
def isSpaceLike (c : Char) : Bool :=
  c = ' ' || c = '\t' || c = '\n' || c = '\r' || c = '\x0b' || c = '\x0c'

/-- Drop characters up to and including the first occurrence of `close`;
`none` when `close` does not occur.  Helper for the non-greedy bracket
patterns `\(..[^)]*\)` etc. -/
def findClose (close : Char) : List Char → Option (List Char)
  | [] => none
  | x :: xs => if x = close then some xs else findClose close xs

/-- One full pass of `re.sub(r'\(​[^)]*\)', '', name)` (and the `[...]`,
`{...}` variants): at an opening delimiter, the match extends to the
nearest closing delimiter; without a closing delimiter there is no match
at that position.  `fuel` bounds the recursion by the list length. -/
def stripDelimAux (o c : Char) : Nat → List Char → List Char
  | 0, l => l
  | _ + 1, [] => []
  | fuel + 1, x :: xs =>
    if x = o then
      match findClose c xs with
      | some rest => stripDelimAux o c fuel rest
      | none => x :: stripDelimAux o c fuel xs
    else x :: stripDelimAux o c fuel xs

/-- Remove all non-nested `o...c` bracketed spans, as the source's three
bracket-removal substitutions do. -/
def stripDelim (o c : Char) (l : List Char) : List Char :=
  stripDelimAux o c l.length l

/-- Literal pattern match at the head of a list. -/
def litMatch : List Char → List Char → Bool
  | [], _ => true
  | _ :: _, [] => false
  | x :: xs, y :: ys => x = y && litMatch xs ys

/-- `re.sub(r'\b' + re.escape(w) + r'\b', '', s)`, scanning left to
right over the original string: at each position the pattern matches when
the word-boundary before the first character, the literal word, and the
word-boundary after the last character all hold; a match is removed and
scanning resumes after it (boundaries are judged on the original
characters, so the previous character after a removal is the last
character of the removed text).  `fuel` bounds recursion by the list
length. -/
def subWordAux (w : List Char) : Nat → Option Char → List Char → List Char
  | 0, _, l => l
  | _ + 1, _, [] => []
  | fuel + 1, prev, x :: xs =>
    if boundaryB prev w.head? && litMatch w (x :: xs) &&
        boundaryB (some (w.getLastD ' ')) (List.drop w.length (x :: xs)).head? then
      subWordAux w fuel (some (w.getLastD ' ')) (List.drop w.length (x :: xs))
    else
      x :: subWordAux w fuel (some x) xs

/-- Remove every whole-word occurrence of `w` (word-boundary matching). -/
def subWord (w : List Char) (l : List Char) : List Char :=
  subWordAux w l.length none l

/-- One pass of `re.sub(r'\s+', ' ', name)`: each maximal run of
whitespace becomes a single space.  The boolean records whether the
previous character belonged to a whitespace run. -/
def collapseAux : Bool → List Char → List Char
  | _, [] => []
  | prevWs, x :: xs =>
    if isSpaceLike x then
      if prevWs then collapseAux true xs else ' ' :: collapseAux true xs
    else x :: collapseAux false xs

/-- `re.sub(r'\s+', ' ', name)`. -/
def collapseWs (l : List Char) : List Char := collapseAux false l

/-- Remove a trailing run of whitespace (the right half of
`str.strip()`). -/
def dropTrailWs : List Char → List Char
  | [] => []
  | x :: xs =>
    match dropTrailWs xs with
    | [] => if isSpaceLike x then [] else [x]
    | ys => x :: ys

/-- Python `str.strip()`: remove leading and trailing whitespace. -/
def pyStrip (l : List Char) : List Char :=
  dropTrailWs (l.dropWhile isSpaceLike)

/-- No two adjacent whitespace characters: invariant of whitespace
collapsing, used to reason about re-normalization. -/
def noRun : List Char → Bool
  | [] => true
  | [_] => true
  | x :: y :: rest => (!(isSpaceLike x && isSpaceLike y)) && noRun (y :: rest)

/-- ASCII lower-casing of a character list (Python `str.lower()` on the
ASCII data in scope). -/
def toLowerList (l : List Char) : List Char := l.map Char.toLower

/-- The two word-removal loops of `normalize_name`: every
`COMMON_REMOVE_WORDS` entry (lower-cased, as `word.lower()` in the
source) and then every `COMMON_SUFFIXES` entry is removed with
word-boundary matching, in list order. -/
def removeWordsPass (l : List Char) : List Char :=
  COMMON_SUFFIXES.foldl (fun acc w => subWord w.data acc)
    (COMMON_REMOVE_WORDS.foldl (fun acc w => subWord (toLowerList w.data) acc) l)

/-- The body of `normalize_name` on an actual string, step for step:
lower-case, strip the three bracket kinds, remove noise words and
suffixes at word boundaries, drop every character outside `[a-z0-9 ]`,
collapse whitespace runs, and strip the ends. -/
def normalize_chars (l : List Char) : List Char :=
  pyStrip (collapseWs
    ((removeWordsPass
        (stripDelim '{' '}' (stripDelim '[' ']' (stripDelim '(' ')' (toLowerList l))))).filter
      isCleanChar))

/-- `normalize_name` of the source: non-string input yields `""`. -/
def normalize_name : RawName → String
  | none => ""
  | some s => String.mk (normalize_chars s.data)

/-- A registry record: the raw Salesforce name paired with its normalized
form (the `name_tuple` of the source). -/
abbrev SFRec := RawName × String

/-- The inverted n-gram index: an association list from n-gram to its
bucket, in dictionary insertion order. -/
abbrev NGramIndex := List (String × List SFRec)

/-- `get_ngrams`: the set of overlapping length-`n` substrings, or the
whole string when it is shorter than `n`.  The Python `set` is modelled
as a duplicate-free list (iteration order of a Python set is arbitrary;
nothing downstream depends on it). -/
def get_ngrams (s : String) (n : Nat := 2) : List String :=
  if s.length < n then [s]
  else ((List.range (s.length - n + 1)).map
    (fun i => String.mk ((s.data.drop i).take n))).dedup

/-- Append record `r` to the bucket of `g`, creating the bucket at the
end when absent — exactly the effect of the source's
`index.setdefault`-style insertion into a `dict` of lists. -/
def addRecord : NGramIndex → String → SFRec → NGramIndex
  | [], g, r => [(g, [r])]
  | (g', b) :: rest, g, r =>
    if g' = g then (g', b ++ [r]) :: rest else (g', b) :: addRecord rest g r

/-- Bucket lookup; an absent n-gram has an empty bucket (the source
guards with `if ngram in ngram_index`). -/
def lookupIdx : NGramIndex → String → List SFRec
  | [], _ => []
  | (g', b) :: rest, g => if g' = g then b else lookupIdx rest g

/-- `create_ngram_index`: records with an empty normalized name are
skipped; every other record is appended to the bucket of each of its
n-grams. -/
def create_ngram_index (names : List SFRec) (n : Nat := 2) : NGramIndex :=
  names.foldl
    (fun idx t =>
      if t.2 = "" then idx
      else (get_ngrams t.2 n).foldl (fun idx g => addRecord idx g t) idx)
    []

/-- `candidates.add(candidate)` on the Python set of candidate tuples:
insert unless already present. -/
def insertCand (cands : List SFRec) (r : SFRec) : List SFRec :=
  if r ∈ cands then cands else cands ++ [r]

/-- `find_candidates`: empty query short-circuits to the empty set;
otherwise the buckets of the query's n-grams are unioned with
deduplication by record identity. -/
def find_candidates (normP : String) (idx : NGramIndex) (n : Nat := 2) : List SFRec :=
  if normP = "" then []
  else (get_ngrams normP n).foldl
    (fun cands g => (lookupIdx idx g).foldl insertCand cands) []

/-- Insert/delete-only edit distance (the distance underlying
`rapidfuzz.distance.Indel`, hence `fuzz.ratio`): substitution is not an
elementary operation.  `fuel` bounds recursion by the total length. -/
def indelAux : Nat → List Char → List Char → Nat
  | 0, a, b => a.length + b.length
  | _ + 1, [], b => b.length
  | _ + 1, a@(_ :: _), [] => a.length
  | fuel + 1, x :: xs, y :: ys =>
    if x = y then indelAux fuel xs ys
    else 1 + min (indelAux fuel xs (y :: ys)) (indelAux fuel (x :: xs) ys)

/-- The indel distance of two character lists. -/
def indelDist (a b : List Char) : Nat := indelAux (a.length + b.length) a b

/-- `rapidfuzz.fuzz.ratio`: the normalized indel similarity
`100 * (1 - dist / (len a + len b))`, with `100` when both strings are
empty, modelled with exact rational arithmetic. -/
def fuzz_ratio (a b : String) : ℚ :=
  if a.length + b.length = 0 then 100
  else 100 * (1 - (indelDist a.data b.data : ℚ) / ((a.length : ℚ) + (b.length : ℚ)))

/-- A row of the source's result list (dictionary with keys `Prospect`,
`Matched Salesforce Entry`, `Similarity %`, `Normalized Prospect`,
`Normalized Salesforce`). -/
structure MatchRecord where
  prospect : RawName
  matched : RawName
  score : ℚ
  normProspect : String
  normMatched : String
deriving DecidableEq

/-- The per-prospect body of `process_batch`: normalize, skip when empty,
fetch candidates, and keep a record for every candidate scoring at least
the threshold.  The threshold is the source's module constant
`SIMILARITY_THRESHOLD`, passed explicitly here. -/
def process_prospect (t : ℚ) (idx : NGramIndex) (p : RawName) : List MatchRecord :=
  if normalize_name p = "" then []
  else
    (find_candidates (normalize_name p) idx).foldl
      (fun acc c =>
        if t ≤ fuzz_ratio (normalize_name p) c.2 then
          acc ++ [⟨p, c.1, fuzz_ratio (normalize_name p) c.2, normalize_name p, c.2⟩]
        else acc)
      []

/-- `process_batch` (the unused `sf_normalized_dict` parameter of the
source is omitted). -/
def process_batch (t : ℚ) (idx : NGramIndex) (batch : List RawName) : List MatchRecord :=
  batch.foldl (fun acc p => acc ++ process_prospect t idx p) []

/-- The matching phase of `__main__`: pre-normalize the registry, drop
records whose normalized form is empty, build the index, and process the
prospects. -/
def run_pipeline (registry prospects : List RawName) (t : ℚ) : List MatchRecord :=
  process_batch t
    (create_ngram_index
      ((registry.map (fun nm => (nm, normalize_name nm))).filter (fun tp => ¬tp.2 = "")))
    prospects

/-- Stable ascending insertion: a record is placed before the first
strictly defeated element, so equal scores keep their relative order. -/
def insertAsc (r : MatchRecord) : List MatchRecord → List MatchRecord
  | [] => [r]
  | x :: xs => if r.score ≤ x.score then r :: x :: xs else x :: insertAsc r xs

/-- Stable ascending sort by score. -/
def sortAscByScore (l : List MatchRecord) : List MatchRecord := l.foldr insertAsc []

/-- The output stage of `__main__`:
`matches_df.sort_values('Similarity %', ascending=False)` with the
default `kind='quicksort'`, and no output at all when `matches` is empty.
pandas computes an ascending argsort and reverses the whole indexer for
`ascending=False`; numpy's quicksort falls back to a stable insertion
sort below its introsort cutoff, so for small inputs the sorted output is
exactly the reverse of a stable ascending sort — tied scores come out in
reversed encounter order. -/
def finalize (records : List MatchRecord) : List MatchRecord :=
  if records = [] then [] else (sortAscByScore records).reverse

/-- Levenshtein distance with unit-cost substitution.  Modelled from the
spec: the spec's scoring contract `100 * (1 - levenshtein(a,b) /
max(len(a), len(b)))` names the classical Levenshtein distance, which the
source (via `fuzz.ratio`) does not use; this definition exists only to
compare the spec's formula with the code's. -/
def levAux : Nat → List Char → List Char → Nat
  | 0, a, b => a.length + b.length
  | _ + 1, [], b => b.length
  | _ + 1, a@(_ :: _), [] => a.length
  | fuel + 1, x :: xs, y :: ys =>
    if x = y then levAux fuel xs ys
    else 1 + min (levAux fuel xs ys) (min (levAux fuel xs (y :: ys)) (levAux fuel (x :: xs) ys))

/-- Modelled from the spec: classical Levenshtein distance of two
strings. -/
def spec_levenshtein (a b : String) : Nat := levAux (a.length + b.length) a.data b.data

/-- Modelled from the spec: the spec's scoring formula —
`100 * (1 - levenshtein(a,b) / max(len(a), len(b)))` rounded to the
nearest integer, with `100` for two empty strings and `0` when exactly
one is empty. -/
def spec_score (a b : String) : ℤ :=
  if a.length = 0 ∧ b.length = 0 then 100
  else if a.length = 0 ∨ b.length = 0 then 0
  else round (100 * (1 - (spec_levenshtein a b : ℚ) / (max a.length b.length : ℚ)))

/-! ### General lemmas about the matching engine -/

/-- A fold that conditionally appends singletons is a filter-and-map. -/
theorem foldl_if_append {α β : Type*} (P : α → Prop) [DecidablePred P] (f : α → β)
    (l : List α) :
    ∀ (acc : List β),
      l.foldl (fun a c => if P c then a ++ [f c] else a) acc
        = acc ++ (l.filter (fun c => decide (P c))).map f := by
  induction l with
  | nil => intro acc; simp
  | cons c l ih =>
    intro acc
    by_cases h : P c <;> simp [h, ih, List.filter_cons]

/-- `process_prospect` as a filter-and-map over the candidate list. -/
theorem process_prospect_eq (t : ℚ) (idx : NGramIndex) (p : RawName) :
    process_prospect t idx p =
      if normalize_name p = "" then []
      else
        ((find_candidates (normalize_name p) idx).filter
            (fun c => decide (t ≤ fuzz_ratio (normalize_name p) c.2))).map
          (fun c => ⟨p, c.1, fuzz_ratio (normalize_name p) c.2, normalize_name p, c.2⟩) := by
  by_cases h : normalize_name p = ""
  · simp [process_prospect, h]
  · simp only [process_prospect, h, if_false]
    simpa using foldl_if_append (fun c : SFRec => t ≤ fuzz_ratio (normalize_name p) c.2)
      (fun c : SFRec =>
        (⟨p, c.1, fuzz_ratio (normalize_name p) c.2, normalize_name p, c.2⟩ : MatchRecord))
      (find_candidates (normalize_name p) idx) []

/-- A fold that appends blocks is a flatten of a map. -/
theorem foldl_append_flatten {α β : Type*} (f : α → List β) (l : List α) :
    ∀ (acc : List β),
      l.foldl (fun a p => a ++ f p) acc = acc ++ (l.map f).flatten := by
  induction l with
  | nil => intro acc; simp
  | cons p l ih => intro acc; simp [ih]

/-- `process_batch` is the concatenation of the per-prospect results. -/
theorem process_batch_eq (t : ℚ) (idx : NGramIndex) (ps : List RawName) :
    process_batch t idx ps = (ps.map (process_prospect t idx)).flatten := by
  simpa using foldl_append_flatten (process_prospect t idx) ps []

/-! ### Lemmas about the indel distance and the score -/

/-- `indelAux` is symmetric in its two lists (at any fuel). -/
theorem indelAux_comm (f : Nat) : ∀ (a b : List Char), indelAux f a b = indelAux f b a := by
  induction f with
  | zero => intro a b; simp [indelAux, Nat.add_comm]
  | succ f ih =>
    intro a b
    cases a with
    | nil => cases b with
      | nil => rfl
      | cons y ys => rfl
    | cons x xs => cases b with
      | nil => rfl
      | cons y ys =>
        by_cases h : x = y
        · subst h; simp [indelAux, ih]
        · simp only [indelAux, if_neg h, if_neg (Ne.symm h)]
          rw [ih xs (y :: ys), ih (x :: xs) ys, Nat.min_comm]

/-- The indel distance is at most the sum of the lengths. -/
theorem indelAux_le (f : Nat) : ∀ (a b : List Char), indelAux f a b ≤ a.length + b.length := by
  induction f with
  | zero => intro a b; simp [indelAux]
  | succ f ih =>
    intro a b
    cases a with
    | nil => simp [indelAux]
    | cons x xs => cases b with
      | nil => simp [indelAux]
      | cons y ys =>
        by_cases h : x = y
        · subst h
          calc indelAux (f + 1) (x :: xs) (x :: ys) = indelAux f xs ys := by
                simp [indelAux]
            _ ≤ xs.length + ys.length := ih xs ys
            _ ≤ (x :: xs).length + (x :: ys).length := by simp; omega
        · have h1 := ih xs (y :: ys)
          have h2 : indelAux (f + 1) (x :: xs) (y :: ys)
              = 1 + min (indelAux f xs (y :: ys)) (indelAux f (x :: xs) ys) := by
            simp [indelAux, h]
          have h3 : min (indelAux f xs (y :: ys)) (indelAux f (x :: xs) ys)
              ≤ indelAux f xs (y :: ys) := Nat.min_le_left _ _
          have h5 : min (indelAux f xs (y :: ys)) (indelAux f (x :: xs) ys)
              ≤ xs.length + (y :: ys).length := le_trans h3 h1
          rw [h2]
          simp only [List.length_cons] at h5 ⊢
          omega

/-- With sufficient fuel, zero indel distance characterizes equality. -/
theorem indelAux_eq_zero (f : Nat) :
    ∀ (a b : List Char), a.length + b.length ≤ f → (indelAux f a b = 0 ↔ a = b) := by
  induction f with
  | zero =>
    intro a b h
    cases a with
    | nil =>
      cases b with
      | nil => simp [indelAux]
      | cons y ys => simp at h
    | cons x xs => simp at h
  | succ f ih =>
    intro a b h
    cases a with
    | nil =>
      cases b with
      | nil => simp [indelAux]
      | cons y ys => simp [indelAux]
    | cons x xs => cases b with
      | nil => simp [indelAux]
      | cons y ys =>
        by_cases hxy : x = y
        · subst hxy
          have := ih xs ys (by simp at h; omega)
          simp [indelAux, this]
        · simp [indelAux, hxy]

/-- The indel distance from the empty list is the other list's length. -/
theorem indelAux_nil_left (f : Nat) (b : List Char) : indelAux f [] b = b.length := by
  cases f <;> simp [indelAux]

/-- A string of length zero is the empty string. -/
theorem str_length_eq_zero {s : String} : s.length = 0 ↔ s = "" := by
  constructor
  · intro h
    apply String.ext
    have h' : s.data.length = 0 := h
    simpa using List.length_eq_zero.mp h'
  · intro h
    subst h
    rfl

/-! ### Claim theorems -/

/-- C2 (corrected): the score produced by the code is the rapidfuzz
normalized indel similarity `100 * (1 - indel(a,b) / (len a + len b))` —
an exact rational, not a rounded integer and not based on the classical
Levenshtein-over-max formula.  It lies in `[0, 100]`, equals `100`
exactly for equal strings (hence for two empty strings), and equals `0`
when exactly one string is empty. -/
theorem c2_score_contract (a b : String) :
    (0 ≤ fuzz_ratio a b ∧ fuzz_ratio a b ≤ 100) ∧
    (fuzz_ratio a b = 100 ↔ a = b) ∧
    (a = "" → b ≠ "" → fuzz_ratio a b = 0) ∧
    (a.length + b.length ≠ 0 →
      fuzz_ratio a b
        = 100 * (1 - (indelDist a.data b.data : ℚ) / ((a.length : ℚ) + (b.length : ℚ)))) := by
  by_cases hs : a.length + b.length = 0
  · have ha : a = "" := str_length_eq_zero.mp (by omega)
    have hb : b = "" := str_length_eq_zero.mp (by omega)
    subst ha
    subst hb
    have h100 : fuzz_ratio "" "" = 100 := rfl
    refine ⟨⟨?_, ?_⟩, ?_, ?_, ?_⟩
    · rw [h100]; norm_num
    · rw [h100]
    · rw [h100]
      simp
    · intro _ h2
      exact absurd rfl h2
    · intro h
      exact absurd rfl h
  · have hs' : 0 < a.length + b.length := Nat.pos_of_ne_zero hs
    have hQ : (0 : ℚ) < (a.length : ℚ) + (b.length : ℚ) := by exact_mod_cast hs'
    have hne : ((a.length : ℚ) + (b.length : ℚ)) ≠ 0 := ne_of_gt hQ
    have hdnat : indelDist a.data b.data ≤ a.length + b.length := indelAux_le _ _ _
    have hd_le : (indelDist a.data b.data : ℚ) ≤ (a.length : ℚ) + (b.length : ℚ) := by
      exact_mod_cast hdnat
    have hd0 : (0 : ℚ) ≤ (indelDist a.data b.data : ℚ) := Nat.cast_nonneg _
    have hfr : fuzz_ratio a b
        = 100 * (1 - (indelDist a.data b.data : ℚ) / ((a.length : ℚ) + (b.length : ℚ))) := by
      simp [fuzz_ratio, hs]
    have hdiv1 : (indelDist a.data b.data : ℚ) / ((a.length : ℚ) + (b.length : ℚ)) ≤ 1 :=
      (div_le_one hQ).mpr hd_le
    have hdiv0 : (0 : ℚ) ≤ (indelDist a.data b.data : ℚ) / ((a.length : ℚ) + (b.length : ℚ)) :=
      div_nonneg hd0 (le_of_lt hQ)
    refine ⟨⟨?_, ?_⟩, ?_, ?_, fun _ => hfr⟩
    · rw [hfr]; linarith
    · rw [hfr]; linarith
    · rw [hfr]
      constructor
      · intro h
        have hds : (indelDist a.data b.data : ℚ) / ((a.length : ℚ) + (b.length : ℚ)) = 0 := by
          linarith
        have hdq : (indelDist a.data b.data : ℚ) = 0 := by
          rcases div_eq_zero_iff.mp hds with h' | h'
          · exact h'
          · exact absurd h' hne
        have hdn : indelDist a.data b.data = 0 := by exact_mod_cast hdq
        exact String.ext ((indelAux_eq_zero _ _ _ le_rfl).mp hdn)
      · intro h
        subst h
        have hdn : indelDist a.data a.data = 0 := (indelAux_eq_zero _ _ _ le_rfl).mpr rfl
        rw [hdn]
        norm_num
    · intro ha hb
      subst ha
      have hd : indelDist ("" : String).data b.data = b.length := indelAux_nil_left _ _
      have hlb : (b.length : ℚ) ≠ 0 := by
        have hbn : b.length ≠ 0 := fun h => hb (str_length_eq_zero.mp h)
        exact_mod_cast hbn
      rw [hfr, hd]
      have h0 : (("" : String).length : ℚ) = 0 := by norm_num [show ("" : String).length = 0 from rfl]
      rw [h0, zero_add]
      field_simp

/-- Witness for C2: a concrete one-empty pair scores 0 and a concrete
equal pair scores 100. -/
theorem c2_score_contract_witness : fuzz_ratio "" "x" = 0 ∧ fuzz_ratio "amace" "amace" = 100 :=
  ⟨(c2_score_contract "" "x").2.2.1 rfl (by decide),
   ((c2_score_contract "amace" "amace").2.1).mpr rfl⟩

/-- C2 (counterexample): at `a = "ab"`, `b = "ba"` the spec's formula
(rounded Levenshtein over the max length) gives 0 while the code's score
is 50, so the claimed equality fails. -/
theorem c2_counterexample :
    spec_score "ab" "ba" = 0 ∧ fuzz_ratio "ab" "ba" = 50 ∧
      fuzz_ratio "ab" "ba" ≠ ((spec_score "ab" "ba" : ℤ) : ℚ) := by
  have hl : spec_levenshtein "ab" "ba" = 2 := by decide
  have hd : indelDist "ab".data "ba".data = 2 := by decide
  have h1 : ("ab" : String).length = 2 := rfl
  have h2 : ("ba" : String).length = 2 := rfl
  have hsp : spec_score "ab" "ba" = 0 := by
    simp only [spec_score, hl, h1, h2]
    norm_num
  have hf : fuzz_ratio "ab" "ba" = 50 := by
    simp only [fuzz_ratio, hd, h1, h2]
    norm_num
  refine ⟨hsp, hf, ?_⟩
  rw [hf, hsp]
  norm_num

/-- C8: the similarity score is commutative. -/
theorem c8_score_symmetric (a b : String) : fuzz_ratio a b = fuzz_ratio b a := by
  have hd : indelDist a.data b.data = indelDist b.data a.data := by
    unfold indelDist
    rw [indelAux_comm, Nat.add_comm a.data.length b.data.length]
  simp only [fuzz_ratio, hd]
  rw [Nat.add_comm a.length b.length, add_comm (a.length : ℚ) (b.length : ℚ)]

/-- C5: processing the prospects as singleton batches and concatenating
equals processing them as one full batch — batching does not change the
records or their scores. -/
theorem c5_batching_invariance (t : ℚ) (idx : NGramIndex) (ps : List RawName) :
    (ps.map (fun p => process_batch t idx [p])).flatten = process_batch t idx ps := by
  simp [process_batch_eq]

/-- C9: suffix removal is word-boundary matching: the token "ltdxyz" is
kept even though it contains "ltd", while a standalone "ltd" is
stripped. -/
theorem c9_word_boundary :
    normalize_name (some "Ltdxyz Pvt") = "ltdxyz" ∧ normalize_name (some "Acme Ltd") = "acme" := by
  decide

/-- C3 (code bug, supporting evidence): on the model of the source's
output stage — pandas `sort_values('Similarity %', ascending=False)`
with the default non-stable `kind='quicksort'`, which reverses a stable
ascending argsort for sub-cutoff frames — two distinct records with
equal scores come out in reversed encounter order, contradicting the
spec's stable-sort contract; the empty collection yields empty output
without error. -/
theorem c3_tie_reversal :
    finalize [] = [] ∧
    finalize
        [(⟨some "p1", some "r1", 90, "n1", "m1"⟩ : MatchRecord),
         ⟨some "p2", some "r2", 90, "n2", "m2"⟩]
      = [⟨some "p2", some "r2", 90, "n2", "m2"⟩, ⟨some "p1", some "r1", 90, "n1", "m1"⟩] ∧
    (⟨some "p1", some "r1", 90, "n1", "m1"⟩ : MatchRecord)
      ≠ ⟨some "p2", some "r2", 90, "n2", "m2"⟩ := by
  refine ⟨rfl, ?_, ?_⟩
  · simp [finalize, sortAscByScore, insertAsc]
  · simp [MatchRecord.mk.injEq]

/-- Every record emitted for one prospect scores at least the
threshold. -/
theorem process_prospect_score_ge (t : ℚ) (idx : NGramIndex) (q : RawName) :
    ∀ r ∈ process_prospect t idx q, t ≤ r.score := by
  intro r hr
  rw [process_prospect_eq] at hr
  by_cases h : normalize_name q = ""
  · simp [h] at hr
  · rw [if_neg h] at hr
    rcases List.mem_map.mp hr with ⟨cc, hcc, rfl⟩
    have hp := (List.mem_filter.mp hcc).2
    simpa using of_decide_eq_true hp

/-- C6: every emitted `MatchRecord` scores at least the configured
threshold; a candidate pair scoring exactly the threshold yields its
record, and the same pair scoring threshold − 1 yields no record. -/
theorem c6_threshold (t : ℚ) (idx : NGramIndex) (ps : List RawName) (p : RawName) (c : SFRec)
    (hnp : normalize_name p ≠ "")
    (hc : c ∈ find_candidates (normalize_name p) idx) :
    (∀ r ∈ process_batch t idx ps, t ≤ r.score) ∧
    (fuzz_ratio (normalize_name p) c.2 = t →
      (⟨p, c.1, t, normalize_name p, c.2⟩ : MatchRecord) ∈ process_prospect t idx p) ∧
    (fuzz_ratio (normalize_name p) c.2 = t - 1 →
      (⟨p, c.1, t - 1, normalize_name p, c.2⟩ : MatchRecord) ∉ process_prospect t idx p) := by
  refine ⟨fun r hr => ?_, fun hr => ?_, fun hr hmem => ?_⟩
  · rw [process_batch_eq] at hr
    rcases List.mem_flatten.mp hr with ⟨l, hl, hrl⟩
    rcases List.mem_map.mp hl with ⟨q, _, rfl⟩
    exact process_prospect_score_ge t idx q r hrl
  · rw [process_prospect_eq, if_neg hnp]
    apply List.mem_map.mpr
    refine ⟨c, List.mem_filter.mpr ⟨hc, ?_⟩, ?_⟩
    · simp [hr]
    · rw [hr]
  · have hge := process_prospect_score_ge t idx p _ hmem
    have hsc : (⟨p, c.1, t - 1, normalize_name p, c.2⟩ : MatchRecord).score = t - 1 := rfl
    rw [hsc] at hge
    linarith

/-- Bucket contents after a single `addRecord` insertion. -/
theorem lookup_addRecord (g : String) (r : SFRec) :
    ∀ (idx : NGramIndex) (q : String),
      lookupIdx (addRecord idx g r) q
        = if q = g then lookupIdx idx q ++ [r] else lookupIdx idx q := by
  intro idx
  induction idx with
  | nil =>
    intro q
    by_cases h : q = g
    · subst h; simp [addRecord, lookupIdx]
    · rw [if_neg h]
      simp [addRecord, lookupIdx, Ne.symm h]
  | cons e rest ih =>
    obtain ⟨g0, b0⟩ := e
    intro q
    simp only [addRecord]
    by_cases h0 : g0 = g
    · subst h0
      rw [if_pos rfl]
      by_cases hq : g0 = q
      · subst hq
        simp [lookupIdx]
      · have hq' : ¬q = g0 := fun h' => hq h'.symm
        simp [lookupIdx, hq, hq']
    · rw [if_neg h0]
      by_cases hq : g0 = q
      · subst hq
        have hqg : ¬g0 = g := h0
        simp [lookupIdx, hqg]
      · by_cases hqg : q = g
        · rw [if_pos hqg]
          simp only [lookupIdx, if_neg hq]
          rw [ih q, if_pos hqg]
        · rw [if_neg hqg]
          simp only [lookupIdx, if_neg hq]
          rw [ih q, if_neg hqg]

/-- Every record reachable through the index built by
`create_ngram_index` has a non-empty normalized name. -/
theorem lookup_create_nonempty (n : Nat) (names : List SFRec) :
    ∀ (g : String) (r : SFRec), r ∈ lookupIdx (create_ngram_index names n) g → r.2 ≠ "" := by
  have inner : ∀ (tp : SFRec), tp.2 ≠ "" → ∀ (gs : List String) (idx' : NGramIndex),
      (∀ g r, r ∈ lookupIdx idx' g → r.2 ≠ "") →
      ∀ g r, r ∈ lookupIdx (gs.foldl (fun idx g => addRecord idx g tp) idx') g → r.2 ≠ "" := by
    intro tp ht gs
    induction gs with
    | nil => intro idx' h; exact h
    | cons g0 gs ih2 =>
      intro idx' h
      simp only [List.foldl_cons]
      apply ih2
      intro g r hr
      rw [lookup_addRecord] at hr
      by_cases hg : g = g0
      · rw [if_pos hg] at hr
        rcases List.mem_append.mp hr with h' | h'
        · exact h _ _ h'
        · have : r = tp := by simpa using h'
          rw [this]
          exact ht
      · rw [if_neg hg] at hr
        exact h _ _ hr
  have main : ∀ (l : List SFRec) (idx : NGramIndex),
      (∀ g r, r ∈ lookupIdx idx g → r.2 ≠ "") →
      ∀ g r,
        r ∈ lookupIdx
            (l.foldl
              (fun idx t =>
                if t.2 = "" then idx
                else (get_ngrams t.2 n).foldl (fun idx g => addRecord idx g t) idx)
              idx) g →
        r.2 ≠ "" := by
    intro l
    induction l with
    | nil => intro idx h; exact h
    | cons tp rest ih =>
      intro idx h
      simp only [List.foldl_cons]
      by_cases ht : tp.2 = ""
      · rw [if_pos ht]
        exact ih idx h
      · rw [if_neg ht]
        exact ih _ (inner tp ht _ idx h)
  exact main names [] (by intro g r hr; simp [lookupIdx] at hr)

/-- C7: the pipeline fails soft on data: non-string input normalizes to
the empty string, a registry record with empty normalized form is never
reachable through the n-gram index, and a prospect whose normalized form
is empty contributes no records — no abort anywhere. -/
theorem c7_fail_soft (t : ℚ) (names : List SFRec) (g : String) (r : SFRec) (p : RawName)
    (idx : NGramIndex)
    (hr : r ∈ lookupIdx (create_ngram_index names) g)
    (hp : normalize_name p = "") :
    normalize_name none = "" ∧ r.2 ≠ "" ∧ process_batch t idx [p] = [] := by
  refine ⟨rfl, lookup_create_nonempty 2 names g r hr, ?_⟩
  rw [process_batch_eq]
  simp [process_prospect_eq, hp]

/-- Witness for C7: a concrete index lookup, a `none` prospect, and the
resulting empty batch. -/
theorem c7_fail_soft_witness :
    normalize_name none = "" ∧ ((some "ab", "ab") : SFRec).2 ≠ "" ∧
      process_batch 90 [] [none] = [] :=
  c7_fail_soft 90 [(some "ab", "ab")] "ab" (some "ab", "ab") none [] (by decide) rfl

/-- Set insertion keeps the candidate list duplicate-free. -/
theorem nodup_insertCand (cands : List SFRec) (r : SFRec) (h : cands.Nodup) :
    (insertCand cands r).Nodup := by
  unfold insertCand
  by_cases hr : r ∈ cands
  · simpa [hr]
  · rw [if_neg hr, List.nodup_append]
    exact ⟨h, List.nodup_singleton r, by simpa [List.disjoint_singleton] using hr⟩

/-- Folding set insertion over any record list keeps the accumulator
duplicate-free. -/
theorem nodup_foldl_insertCand (rs : List SFRec) :
    ∀ (cands : List SFRec), cands.Nodup → (rs.foldl insertCand cands).Nodup := by
  induction rs with
  | nil => intro cands h; exact h
  | cons r rs ih => intro cands h; exact ih _ (nodup_insertCand _ _ h)

/-- The candidate set is always duplicate-free. -/
theorem nodup_find_candidates (q : String) (idx : NGramIndex) (n : Nat) :
    (find_candidates q idx n).Nodup := by
  unfold find_candidates
  by_cases hq : q = ""
  · simp [hq]
  · rw [if_neg hq]
    have h : ∀ (gs : List String) (cands : List SFRec), cands.Nodup →
        (gs.foldl (fun cands g => (lookupIdx idx g).foldl insertCand cands) cands).Nodup := by
      intro gs
      induction gs with
      | nil => intro cands h; exact h
      | cons g gs ih => intro cands h; exact ih _ (nodup_foldl_insertCand _ _ h)
    exact h _ [] List.nodup_nil

/-- In a duplicate-free list, a predicate satisfied only by one fixed
value holds at most once. -/
theorem countP_le_one_of_nodup {α : Type*} (P : α → Bool) (a : α) :
    ∀ (l : List α), l.Nodup → (∀ x, P x = true → x = a) → l.countP P ≤ 1 := by
  intro l
  induction l with
  | nil => intro _ _; simp
  | cons x xs ih =>
    intro hl ha
    have hxs : xs.Nodup := List.Nodup.of_cons hl
    rw [List.countP_cons]
    by_cases hx : P x = true
    · have hxa : x = a := ha x hx
      have h0 : xs.countP P = 0 := by
        rw [List.countP_eq_zero]
        intro y hy hPy
        have hya : y = a := ha y hPy
        rw [hxa] at hl
        rw [hya] at hy
        exact absurd hy (List.Nodup.not_mem hl)
      simp [hx, h0]
    · simp [hx]
      exact le_trans (ih hxs ha) le_rfl

/-- The score of the normalized Amace pair. -/
theorem fuzz_ratio_amace : fuzz_ratio "amace" "amace" = 100 := by
  have hd : indelDist "amace".data "amace".data = 0 := by decide
  have h1 : ("amace" : String).length = 5 := rfl
  simp only [fuzz_ratio, hd, h1]
  norm_num

/-- Concrete evaluation of the end-to-end Amace scenario at threshold
90. -/
theorem amace_run_eval :
    run_pipeline [some "Amace Solutions Pvt. Ltd."]
        [some "Amace Solutions (India) Ltd", some "Totally Different Co"] 90
      = [⟨some "Amace Solutions (India) Ltd", some "Amace Solutions Pvt. Ltd.", 100,
          "amace", "amace"⟩] := by
  have hreg : (([some "Amace Solutions Pvt. Ltd."].map
        (fun nm => (nm, normalize_name nm))).filter (fun tp => ¬tp.2 = ""))
      = [(some "Amace Solutions Pvt. Ltd.", "amace")] := by decide
  have hn1 : normalize_name (some "Amace Solutions (India) Ltd") = "amace" := by decide
  have hn2 : normalize_name (some "Totally Different Co") = "totally different" := by decide
  have hc1 : find_candidates "amace"
        (create_ngram_index [(some "Amace Solutions Pvt. Ltd.", "amace")])
      = [(some "Amace Solutions Pvt. Ltd.", "amace")] := by decide
  have hc2 : find_candidates "totally different"
        (create_ngram_index [(some "Amace Solutions Pvt. Ltd.", "amace")]) = [] := by decide
  have hpp1 : process_prospect 90
        (create_ngram_index [(some "Amace Solutions Pvt. Ltd.", "amace")])
        (some "Amace Solutions (India) Ltd")
      = [⟨some "Amace Solutions (India) Ltd", some "Amace Solutions Pvt. Ltd.", 100,
          "amace", "amace"⟩] := by
    rw [process_prospect_eq, hn1]
    rw [if_neg (by decide : ¬("amace" : String) = ""), hc1]
    have hq : (90 : ℚ) ≤ fuzz_ratio "amace" "amace" := by
      rw [fuzz_ratio_amace]
      norm_num
    simp [List.filter_cons, hq, fuzz_ratio_amace]
    norm_num [fuzz_ratio_amace]
  have hpp2 : process_prospect 90
        (create_ngram_index [(some "Amace Solutions Pvt. Ltd.", "amace")])
        (some "Totally Different Co") = [] := by
    rw [process_prospect_eq, hn2]
    rw [if_neg (by decide : ¬("totally different" : String) = ""), hc2]
    simp
  simp only [run_pipeline]
  rw [hreg, process_batch_eq]
  simp [hpp1, hpp2]

/-- C1 (counterexample): the pipeline on the spec's scenario emits one
record whose normalized names are both "amace", which is not the claimed
"amace solutions". -/
theorem c1_counterexample :
    run_pipeline [some "Amace Solutions Pvt. Ltd."]
        [some "Amace Solutions (India) Ltd", some "Totally Different Co"] 90
      = [⟨some "Amace Solutions (India) Ltd", some "Amace Solutions Pvt. Ltd.", 100,
          "amace", "amace"⟩] ∧
    ("amace" : String) ≠ "amace solutions" :=
  ⟨amace_run_eval, by decide⟩

/-- C1 (corrected): the scenario emits exactly one `MatchRecord`; both
its normalized names are "amace" (the word "solutions" is itself in
`COMMON_SUFFIXES` and is stripped as a suffix), its score is 100, and no
record is emitted for "Totally Different Co". -/
theorem c1_amace_scenario :
    (run_pipeline [some "Amace Solutions Pvt. Ltd."]
        [some "Amace Solutions (India) Ltd", some "Totally Different Co"] 90).length = 1 ∧
    run_pipeline [some "Amace Solutions Pvt. Ltd."]
        [some "Amace Solutions (India) Ltd", some "Totally Different Co"] 90
      = [⟨some "Amace Solutions (India) Ltd", some "Amace Solutions Pvt. Ltd.", 100,
          "amace", "amace"⟩] ∧
    normalize_name (some "Amace Solutions Pvt. Ltd.") = "amace" ∧
    normalize_name (some "Amace Solutions (India) Ltd") = "amace" ∧
    ∀ r ∈ run_pipeline [some "Amace Solutions Pvt. Ltd."]
        [some "Amace Solutions (India) Ltd", some "Totally Different Co"] 90,
      r.prospect ≠ some "Totally Different Co" := by
  refine ⟨?_, amace_run_eval, by decide, by decide, ?_⟩
  · rw [amace_run_eval]
    rfl
  · intro r hr
    rw [amace_run_eval] at hr
    rw [List.mem_singleton.mp hr]
    decide

/-- C10: candidate retrieval deduplicates records (Python set
semantics), so the candidate set is duplicate-free and each distinct
(raw, normalized) registry pair yields at most one record per
prospect. -/
theorem c10_candidate_dedup (q : String) (idx : NGramIndex) (t : ℚ) (p : RawName)
    (m : RawName) (nm : String) :
    (find_candidates q idx).Nodup ∧
    (process_prospect t idx p).countP
        (fun r => r.matched == m && r.normMatched == nm) ≤ 1 := by
  refine ⟨nodup_find_candidates q idx 2, ?_⟩
  by_cases hp : normalize_name p = ""
  · simp [process_prospect_eq, hp]
  · rw [process_prospect_eq, if_neg hp, List.countP_map]
    have hle : ((find_candidates (normalize_name p) idx).filter
          (fun c => decide (t ≤ fuzz_ratio (normalize_name p) c.2))).countP
          ((fun r : MatchRecord => r.matched == m && r.normMatched == nm) ∘
            (fun c : SFRec =>
              (⟨p, c.1, fuzz_ratio (normalize_name p) c.2, normalize_name p, c.2⟩ : MatchRecord)))
        ≤ (find_candidates (normalize_name p) idx).countP
          ((fun r : MatchRecord => r.matched == m && r.normMatched == nm) ∘
            (fun c : SFRec =>
              (⟨p, c.1, fuzz_ratio (normalize_name p) c.2, normalize_name p, c.2⟩ : MatchRecord))) :=
      List.Sublist.countP_le _ (List.filter_sublist _)
    refine le_trans hle ?_
    apply countP_le_one_of_nodup _ ((m, nm) : SFRec) _ (nodup_find_candidates _ idx 2)
    intro x hx
    obtain ⟨x1, x2⟩ := x
    simp only [Function.comp_apply, Bool.and_eq_true, beq_iff_eq, decide_eq_true_eq] at hx
    rw [hx.1, hx.2]


/-! ### Lemmas for re-normalization (claim C4) -/

/-- Characters of the whitespace-collapsed list come from the input or
are the space character. -/
theorem mem_collapseAux : ∀ (l : List Char) (b : Bool) (c : Char),
    c ∈ collapseAux b l → c ∈ l ∨ c = ' '
  | [], b, c => by simp [collapseAux]
  | x :: xs, b, c => by
    simp only [collapseAux]
    by_cases hx : isSpaceLike x
    · rw [if_pos hx]
      cases b
      · simp only [Bool.false_eq_true, if_false]
        intro hc
        rcases List.mem_cons.mp hc with h | h
        · right; exact h
        · rcases mem_collapseAux xs true c h with h' | h'
          · left; exact List.mem_cons_of_mem _ h'
          · right; exact h'
      · simp only [if_true]
        intro hc
        rcases mem_collapseAux xs true c hc with h' | h'
        · left; exact List.mem_cons_of_mem _ h'
        · right; exact h'
    · rw [if_neg hx]
      intro hc
      rcases List.mem_cons.mp hc with h | h
      · left; rw [h]; exact List.mem_cons_self _ _
      · rcases mem_collapseAux xs false c h with h' | h'
        · left; exact List.mem_cons_of_mem _ h'
        · right; exact h'

/-- Characters survive trailing-whitespace removal only if present. -/
theorem mem_dropTrailWs : ∀ (l : List Char) (c : Char), c ∈ dropTrailWs l → c ∈ l
  | [], c => by simp [dropTrailWs]
  | x :: xs, c => by
    simp only [dropTrailWs]
    cases hys : dropTrailWs xs with
    | nil =>
      by_cases hx : isSpaceLike x
      · simp [hx]
      · simp only [hx, Bool.false_eq_true, if_false]
        intro hc
        rcases List.mem_cons.mp hc with h | h
        · rw [h]; exact List.mem_cons_self _ _
        · cases h
    | cons y ys =>
      intro hc
      rcases List.mem_cons.mp hc with h | h
      · rw [h]; exact List.mem_cons_self _ _
      · have h' : c ∈ dropTrailWs xs := by rw [hys]; exact h
        exact List.mem_cons_of_mem _ (mem_dropTrailWs xs c h')

/-- Every character of the normalizer's output is a lowercase letter, a
digit or a space. -/
theorem normalize_chars_clean (l : List Char) : ∀ c ∈ normalize_chars l, isCleanChar c = true := by
  intro c hc
  simp only [normalize_chars, pyStrip, collapseWs] at hc
  have h1 := mem_dropTrailWs _ c hc
  have h2 := (List.dropWhile_sublist _).subset h1
  rcases mem_collapseAux _ false c h2 with h3 | h3
  · exact List.of_mem_filter h3
  · rw [h3]; rfl

/-- ASCII lower-casing fixes the clean characters. -/
theorem toLower_clean {c : Char} (h : isCleanChar c = true) : Char.toLower c = c := by
  simp only [isCleanChar, Bool.or_eq_true, Bool.and_eq_true, decide_eq_true_eq] at h
  have hno : ¬(c.toNat ≥ 65 ∧ c.toNat ≤ 90) := by
    rcases h with ⟨h1, h2⟩ | ⟨h1, h2⟩ | rfl
    · omega
    · omega
    · decide
  unfold Char.toLower
  simp [hno]

/-- Lower-casing fixes a list of clean characters. -/
theorem toLowerList_clean (l : List Char) (h : ∀ c ∈ l, isCleanChar c = true) :
    toLowerList l = l := by
  unfold toLowerList
  induction l with
  | nil => rfl
  | cons x xs ih =>
    rw [List.map_cons, toLower_clean (h x (List.mem_cons_self _ _)),
      ih (fun c hc => h c (List.mem_cons_of_mem _ hc))]

/-- Bracket removal is the identity when the opening delimiter is
absent. -/
theorem stripDelimAux_id (o c : Char) : ∀ (f : Nat) (l : List Char),
    (∀ x ∈ l, ¬x = o) → stripDelimAux o c f l = l := by
  intro f
  induction f with
  | zero => intro l _; rfl
  | succ f ih =>
    intro l h
    cases l with
    | nil => rfl
    | cons x xs =>
      have hx : ¬x = o := h x (List.mem_cons_self _ _)
      simp only [stripDelimAux, if_neg hx]
      rw [ih xs (fun y hy => h y (List.mem_cons_of_mem _ hy))]

/-- `stripDelim` is the identity when the opening delimiter is absent. -/
theorem stripDelim_id (o c : Char) (l : List Char) (h : ∀ x ∈ l, ¬x = o) :
    stripDelim o c l = l :=
  stripDelimAux_id o c _ l h

/-- A clean character is not one of the three opening delimiters. -/
theorem clean_not_delim {c : Char} (h : isCleanChar c = true) :
    ¬c = '(' ∧ ¬c = '[' ∧ ¬c = '{' := by
  refine ⟨?_, ?_, ?_⟩ <;> intro he <;> subst he <;> exact absurd h (by decide)

/-- The collapsed list in absorbing state never starts with
whitespace. -/
theorem collapseAux_true_head : ∀ (l : List Char) (c : Char),
    (collapseAux true l).head? = some c → isSpaceLike c = false
  | [], c => by simp [collapseAux]
  | x :: xs, c => by
    simp only [collapseAux]
    by_cases hx : isSpaceLike x
    · rw [if_pos hx]
      simp only [if_true]
      exact collapseAux_true_head xs c
    · rw [if_neg hx]
      intro h
      rw [List.head?_cons] at h
      injection h with h
      rw [← h]
      simpa using hx

/-- Whitespace collapsing leaves no run of two whitespace characters. -/
theorem noRun_collapseAux : ∀ (l : List Char) (b : Bool), noRun (collapseAux b l) = true
  | [], _ => rfl
  | x :: xs, b => by
    simp only [collapseAux]
    by_cases hx : isSpaceLike x
    · rw [if_pos hx]
      cases b
      · simp only [Bool.false_eq_true, if_false]
        cases hout : collapseAux true xs with
        | nil => rfl
        | cons y ys =>
          have hy : isSpaceLike y = false := collapseAux_true_head xs y (by rw [hout]; rfl)
          have hn : noRun (y :: ys) = true := by rw [← hout]; exact noRun_collapseAux xs true
          simp [noRun, hy, hn]
      · simp only [if_true]
        exact noRun_collapseAux xs true
    · rw [if_neg hx]
      cases hout : collapseAux false xs with
      | nil => rfl
      | cons y ys =>
        have hn : noRun (y :: ys) = true := by rw [← hout]; exact noRun_collapseAux xs false
        have hx' : isSpaceLike x = false := by simpa using hx
        simp [noRun, hx', hn]

/-- `noRun` is inherited by the tail. -/
theorem noRun_tail {x : Char} {xs : List Char} (h : noRun (x :: xs) = true) :
    noRun xs = true := by
  cases xs with
  | nil => rfl
  | cons y ys =>
    simp only [noRun, Bool.and_eq_true] at h
    exact h.2

/-- `noRun` is preserved by `dropWhile`. -/
theorem noRun_dropWhile (p : Char → Bool) : ∀ (l : List Char),
    noRun l = true → noRun (l.dropWhile p) = true
  | [] => by simp [List.dropWhile]
  | x :: xs => by
    intro h
    rw [List.dropWhile_cons]
    by_cases hp : p x = true
    · rw [if_pos hp]
      exact noRun_dropWhile p xs (noRun_tail h)
    · rw [if_neg hp]
      exact h

/-- Trailing-whitespace removal keeps the head (or empties the list). -/
theorem head_dropTrailWs : ∀ (l : List Char),
    dropTrailWs l = [] ∨ (dropTrailWs l).head? = l.head?
  | [] => Or.inl rfl
  | x :: xs => by
    simp only [dropTrailWs]
    cases hys : dropTrailWs xs with
    | nil =>
      by_cases hx : isSpaceLike x
      · left; simp [hx]
      · right; simp [hx]
    | cons y ys => right; rfl

/-- `noRun` is preserved by trailing-whitespace removal. -/
theorem noRun_dropTrailWs : ∀ (l : List Char), noRun l = true → noRun (dropTrailWs l) = true
  | [] => fun _ => rfl
  | x :: xs => by
    intro h
    simp only [dropTrailWs]
    cases hys : dropTrailWs xs with
    | nil =>
      by_cases hx : isSpaceLike x
      · rw [if_pos hx]; rfl
      · rw [if_neg hx]; rfl
    | cons y ys =>
      have hxs : noRun (y :: ys) = true := by
        rw [← hys]; exact noRun_dropTrailWs xs (noRun_tail h)
      rcases head_dropTrailWs xs with h0 | h0
      · rw [h0] at hys; cases hys
      · rw [hys] at h0
        cases xs with
        | nil => cases hys
        | cons z zs =>
          rw [List.head?_cons, List.head?_cons] at h0
          injection h0 with h0
          simp only [noRun, Bool.and_eq_true] at h
          have hpair := h.1
          rw [← h0] at hpair
          simp [noRun, hxs, hpair]

/-- Trailing-whitespace removal leaves no trailing whitespace. -/
theorem dropTrailWs_last : ∀ (l : List Char) (c : Char),
    (dropTrailWs l).getLast? = some c → isSpaceLike c = false
  | [], c => by simp [dropTrailWs]
  | x :: xs, c => by
    simp only [dropTrailWs]
    cases hys : dropTrailWs xs with
    | nil =>
      by_cases hx : isSpaceLike x
      · rw [if_pos hx]
        intro h
        cases h
      · rw [if_neg hx]
        intro h
        simp only [List.getLast?_singleton] at h
        injection h with h
        rw [← h]
        simpa using hx
    | cons y ys =>
      intro h
      rw [List.getLast?_cons_cons] at h
      rw [← hys] at h
      exact dropTrailWs_last xs c h

/-- After `dropWhile p`, the head does not satisfy `p`. -/
theorem head_dropWhile_not (p : Char → Bool) : ∀ (l : List Char) (c : Char),
    (l.dropWhile p).head? = some c → p c = false
  | [], c => by simp [List.dropWhile]
  | x :: xs, c => by
    rw [List.dropWhile_cons]
    by_cases hp : p x = true
    · rw [if_pos hp]
      exact head_dropWhile_not p xs c
    · rw [if_neg hp]
      intro h
      rw [List.head?_cons] at h
      injection h with h
      rw [← h]
      simpa using hp

/-- A whitespace character that is also clean is the space character. -/
theorem space_clean_eq {c : Char} (hs : isSpaceLike c = true) (hc : isCleanChar c = true) :
    c = ' ' := by
  simp only [isSpaceLike, Bool.or_eq_true, decide_eq_true_eq] at hs
  rcases hs with ((((rfl | rfl) | rfl) | rfl) | rfl) | rfl
  · rfl
  all_goals exact absurd hc (by decide)

/-- One step of whitespace collapsing in the fresh state on a
whitespace head. -/
theorem collapseWs_cons_ws {x : Char} (xs : List Char) (hx : isSpaceLike x = true) :
    collapseAux false (x :: xs) = ' ' :: collapseAux true xs := by
  simp [collapseAux, hx]

/-- One step of whitespace collapsing on a non-whitespace head. -/
theorem collapseAux_cons_nws (b : Bool) {x : Char} (xs : List Char)
    (hx : isSpaceLike x = false) :
    collapseAux b (x :: xs) = x :: collapseAux false xs := by
  cases b <;> simp [collapseAux, hx]

/-- Whitespace collapsing fixes a clean list with isolated spaces and no
trailing space. -/
theorem collapseAux_false_id : ∀ (l : List Char),
    (∀ c ∈ l, isCleanChar c = true) → noRun l = true →
    (∀ c, l.getLast? = some c → isSpaceLike c = false) →
    collapseAux false l = l
  | [] => by intro _ _ _; rfl
  | [x] => by
    intro hclean _ hlast
    have hx : isSpaceLike x = false := hlast x rfl
    simp [collapseAux, hx]
  | x :: y :: rest => by
    intro hclean hrun hlast
    simp only [noRun, Bool.and_eq_true] at hrun
    have htail : collapseAux false (y :: rest) = y :: rest :=
      collapseAux_false_id (y :: rest)
        (fun c hc => hclean c (List.mem_cons_of_mem _ hc))
        hrun.2
        (fun c hc => hlast c (by rw [List.getLast?_cons_cons]; exact hc))
    by_cases hx : isSpaceLike x
    · have hy : isSpaceLike y = false := by
        have hpair := hrun.1
        rw [hx] at hpair
        simpa using hpair
      have hx' : x = ' ' := space_clean_eq hx (hclean x (List.mem_cons_self _ _))
      subst hx'
      rw [collapseWs_cons_ws _ hx]
      have hmerge : collapseAux true (y :: rest) = collapseAux false (y :: rest) := by
        rw [collapseAux_cons_nws true rest hy, collapseAux_cons_nws false rest hy]
      rw [hmerge, htail]
    · have hx' : isSpaceLike x = false := by simpa using hx
      rw [collapseAux_cons_nws false _ hx', htail]

/-- `dropWhile` is the identity when the head does not satisfy the
predicate. -/
theorem dropWhile_id_of_head (p : Char → Bool) (l : List Char)
    (h : ∀ c, l.head? = some c → p c = false) : l.dropWhile p = l := by
  cases l with
  | nil => rfl
  | cons x xs =>
    have hx := h x rfl
    simp [List.dropWhile_cons, hx]

/-- Trailing-whitespace removal fixes a list without trailing
whitespace. -/
theorem dropTrailWs_id : ∀ (l : List Char),
    (∀ c, l.getLast? = some c → isSpaceLike c = false) → dropTrailWs l = l
  | [] => fun _ => rfl
  | x :: xs => by
    intro h
    cases hxs : xs with
    | nil =>
      subst hxs
      have hx : isSpaceLike x = false := h x rfl
      simp [dropTrailWs, hx]
    | cons z zs =>
      subst hxs
      have hrec : dropTrailWs (z :: zs) = z :: zs :=
        dropTrailWs_id (z :: zs) (fun c hc => h c (by rw [List.getLast?_cons_cons]; exact hc))
      show (match dropTrailWs (z :: zs) with
        | [] => if isSpaceLike x then [] else [x]
        | ys => x :: ys) = x :: z :: zs
      rw [hrec]

/-- The composite `strip ∘ collapse` reaches a fixed point after one
application: applying either `collapseWs` or `pyStrip` again changes
nothing. -/
theorem pyStrip_collapseWs_canon (u : List Char) (hu : ∀ c ∈ u, isCleanChar c = true) :
    collapseWs (pyStrip (collapseWs u)) = pyStrip (collapseWs u) ∧
    pyStrip (pyStrip (collapseWs u)) = pyStrip (collapseWs u) := by
  have hm_clean : ∀ c ∈ collapseWs u, isCleanChar c = true := by
    intro c hc
    rcases mem_collapseAux u false c hc with h | h
    · exact hu c h
    · rw [h]; rfl
  have hm_run : noRun (collapseWs u) = true := noRun_collapseAux u false
  have hy_clean : ∀ c ∈ pyStrip (collapseWs u), isCleanChar c = true := by
    intro c hc
    have h1 := mem_dropTrailWs _ c hc
    exact hm_clean c ((List.dropWhile_sublist _).subset h1)
  have hy_run : noRun (pyStrip (collapseWs u)) = true :=
    noRun_dropTrailWs _ (noRun_dropWhile _ _ hm_run)
  have hy_last : ∀ c, (pyStrip (collapseWs u)).getLast? = some c → isSpaceLike c = false :=
    dropTrailWs_last _
  have hy_head : ∀ c, (pyStrip (collapseWs u)).head? = some c → isSpaceLike c = false := by
    intro c hc
    rcases head_dropTrailWs ((collapseWs u).dropWhile isSpaceLike) with h0 | h0
    · rw [pyStrip, h0] at hc
      cases hc
    · rw [pyStrip] at hc
      rw [h0] at hc
      exact head_dropWhile_not _ _ c hc
  constructor
  · exact collapseAux_false_id _ hy_clean hy_run hy_last
  · show dropTrailWs ((pyStrip (collapseWs u)).dropWhile isSpaceLike) = pyStrip (collapseWs u)
    rw [dropWhile_id_of_head _ _ hy_head]
    exact dropTrailWs_id _ hy_last

/-- The field of a packed string. -/
theorem mk_data (l : List Char) : (String.mk l).data = l := rfl

/-- C4 (corrected): normalization is idempotent on every input whose
normalized form is not changed by a further word-removal pass; in
general idempotence fails because character stripping (step 5) can
create a new suffix token that a second run then removes. -/
theorem c4_normalize_idempotent (x : RawName)
    (h : removeWordsPass (normalize_name x).data = (normalize_name x).data) :
    normalize_name (some (normalize_name x)) = normalize_name x := by
  cases x with
  | none => decide
  | some s =>
    simp only [normalize_name, mk_data] at h
    have hclean : ∀ c ∈ normalize_chars s.data, isCleanChar c = true :=
      normalize_chars_clean s.data
    obtain ⟨hcol, hstrip⟩ :=
      pyStrip_collapseWs_canon
        ((removeWordsPass
            (stripDelim '{' '}'
              (stripDelim '[' ']' (stripDelim '(' ')' (toLowerList s.data))))).filter
          isCleanChar)
        (fun c hc => List.of_mem_filter hc)
    have key : normalize_chars (normalize_chars s.data) = normalize_chars s.data := by
      conv_lhs => rw [normalize_chars.eq_def]
      rw [toLowerList_clean _ hclean,
        stripDelim_id '(' ')' _ (fun c hc => (clean_not_delim (hclean c hc)).1),
        stripDelim_id '[' ']' _ (fun c hc => (clean_not_delim (hclean c hc)).2.1),
        stripDelim_id '{' '}' _ (fun c hc => (clean_not_delim (hclean c hc)).2.2),
        h, List.filter_eq_self.mpr hclean]
      rw [normalize_chars.eq_def]
      rw [hcol]
      exact hstrip
    simp only [normalize_name, mk_data]
    rw [key]

/-- Witness for C4: a concrete input on which the side condition holds
and normalization is indeed idempotent. -/
theorem c4_normalize_idempotent_witness :
    normalize_name (some (normalize_name (some "Acme (India) Pvt. Ltd.")))
      = normalize_name (some "Acme (India) Pvt. Ltd.") :=
  c4_normalize_idempotent (some "Acme (India) Pvt. Ltd.") (by decide)

/-- C4 (counterexample): stripping the dot of "c.o" produces the
normalized form "co", which a second normalization removes entirely (it
is the suffix word "co"), so `normalize` is not idempotent on every
input. -/
theorem c4_counterexample :
    normalize_name (some (normalize_name (some "c.o"))) ≠ normalize_name (some "c.o") := by
  decide

/-- Witness for C6: threshold 80, registry entry "ab", prospect "abc"
(score exactly 80): the record is emitted at threshold 80 and not at
threshold 81. -/
theorem c6_threshold_witness :
    ((⟨some "abc", some "ab", 80, normalize_name (some "abc"), "ab"⟩ : MatchRecord)
        ∈ process_prospect 80 (create_ngram_index [(some "ab", "ab")]) (some "abc")) ∧
    ((⟨some "abc", some "ab", (81 : ℚ) - 1, normalize_name (some "abc"), "ab"⟩ : MatchRecord)
        ∉ process_prospect 81 (create_ngram_index [(some "ab", "ab")]) (some "abc")) := by
  have hf : fuzz_ratio (normalize_name (some "abc")) (("ab", "ab") : String × String).2 = 80 := by
    have hn : normalize_name (some "abc") = "abc" := by decide
    rw [hn]
    have hd : indelDist "abc".data "ab".data = 1 := by decide
    have h1 : ("abc" : String).length = 3 := rfl
    have h2 : ("ab" : String).length = 2 := rfl
    show fuzz_ratio "abc" "ab" = 80
    simp only [fuzz_ratio, hd, h1, h2]
    norm_num
  constructor
  · exact (c6_threshold 80 (create_ngram_index [(some "ab", "ab")]) []
      (some "abc") (some "ab", "ab") (by decide) (by decide)).2.1 hf
  · exact (c6_threshold 81 (create_ngram_index [(some "ab", "ab")]) []
      (some "abc") (some "ab", "ab") (by decide) (by decide)).2.2
      (by rw [hf]; norm_num)
